import Mathlib

/-!
Shallow embedding of tools/dr_protocol.js (the D&R Protocol text-analysis
pipeline) and verification of its natural-language specification.

Strings are modelled as lists of characters (Str).  JavaScript regular
expressions are embedded as executable scanners over Str, and JavaScript
semantics that matter to the claims (the set matched by the \s class, the
trim set, the split-on-lookbehind algorithm, object key enumeration order,
stable Array.prototype.sort) are reproduced explicitly.  Case folding
(String.prototype.toLowerCase) is modelled at the ASCII level, which is
exact on the ASCII alphabet the source's patterns use.
-/

namespace DR

/-- Strings as lists of characters. -/
abbrev Str := List Char

/-- Coerce a Lean string literal into the Str model. -/
def str (s : String) : Str := s.data

/-- The JavaScript whitespace class: the set matched by the regex class \s,
which coincides with the set removed by String.prototype.trim
(WhiteSpace plus LineTerminator, ECMA-262). -/
def wsChar (c : Char) : Bool :=
  c.toNat ∈ [9, 10, 11, 12, 13, 32, 160, 5760, 8232, 8233, 8239, 8287, 12288, 65279]
  || (8192 ≤ c.toNat && c.toNat ≤ 8202)

/-- ASCII decimal digit (the regex class [0-9]). -/
def isDigitC (c : Char) : Bool := '0' ≤ c && c ≤ '9'

/-- The JavaScript word-character class \w = [A-Za-z0-9_], used by the
boundary assertion \b. -/
def isWordChar (c : Char) : Bool :=
  ('a' ≤ c && c ≤ 'z') || ('A' ≤ c && c ≤ 'Z') || isDigitC c || c = '_'

/-- Character-level case folding (String.prototype.toLowerCase, modelled on
the ASCII range, which is exact for the patterns of the source). -/
def lowerChar (c : Char) : Char := c.toLower

/-- Lowercase a string (s.toLowerCase()). -/
def jsToLower (s : Str) : Str := s.map lowerChar

/-- String.prototype.trim: drop leading and trailing JavaScript whitespace. -/
def jsTrim (s : Str) : Str :=
  ((s.dropWhile wsChar).reverse.dropWhile wsChar).reverse

/-- Try to strip pattern w from the front of l; some r when l = w ++ r. -/
def stripPre : Str → Str → Option Str
  | [], l => some l
  | _ :: _, [] => none
  | a :: as, b :: bs => if a = b then stripPre as bs else none

/-- String.prototype.includes: pat occurs as a contiguous substring of s. -/
def containsSub : Str → Str → Bool
  | s, pat =>
    match s with
    | [] => (stripPre pat []).isSome
    | _ :: rest => (stripPre pat s).isSome || containsSub rest pat

/-- Generic scanner: does the check succeed at some non-empty suffix of l. -/
def scanP (chk : Str → Bool) : Str → Bool
  | [] => false
  | c :: rest => chk (c :: rest) || scanP chk rest

theorem stripPre_iff (w l r : Str) : stripPre w l = some r ↔ l = w ++ r := by
  induction w generalizing l with
  | nil => simp [stripPre]
  | cons a as ih =>
    cases l with
    | nil => simp [stripPre]
    | cons b bs =>
      by_cases hab : a = b
      · subst hab
        simp [stripPre, ih]
      · simp only [stripPre, if_neg hab, List.cons_append]
        constructor
        · intro h; cases h
        · intro h
          injection h with h1 _
          exact absurd h1.symm hab

theorem stripPre_isSome_iff (w l : Str) :
    (stripPre w l).isSome = true ↔ ∃ r, l = w ++ r := by
  constructor
  · intro h
    cases hs : stripPre w l with
    | none => rw [hs] at h; simp at h
    | some r => exact ⟨r, (stripPre_iff w l r).mp hs⟩
  · rintro ⟨r, rfl⟩
    rw [(stripPre_iff w (w ++ r) r).mpr rfl]
    rfl

theorem scanP_iff (chk : Str → Bool) (l : Str) :
    scanP chk l = true ↔ ∃ l1 l2, l = l1 ++ l2 ∧ l2 ≠ [] ∧ chk l2 = true := by
  induction l with
  | nil =>
    simp only [scanP]
    constructor
    · intro h; cases h
    · rintro ⟨l1, l2, heq, hne, _⟩
      exact absurd (List.append_eq_nil.mp heq.symm).2 hne
  | cons c rest ih =>
    simp only [scanP, Bool.or_eq_true, ih]
    constructor
    · rintro (h | ⟨l1, l2, rfl, hne, hchk⟩)
      · exact ⟨[], c :: rest, rfl, by simp, h⟩
      · exact ⟨c :: l1, l2, rfl, hne, hchk⟩
    · rintro ⟨l1, l2, heq, hne, hchk⟩
      cases l1 with
      | nil =>
        left
        simp only [List.nil_append] at heq
        rw [← heq] at hchk
        exact hchk
      | cons a as =>
        right
        simp only [List.cons_append, List.cons.injEq] at heq
        exact ⟨as, l2, heq.2, hne, hchk⟩

/-- Normalize line endings: input.replace(/\r\n/g, '\n'). -/
def normCRLF : Str → Str
  | '\r' :: '\n' :: rest => '\n' :: normCRLF rest
  | c :: rest => c :: normCRLF rest
  | [] => []

/-- Does the lookbehind (?<=[.?!]\s+|\n{2,}) hold at a position whose
preceding text, read backwards, is pre?  The first alternative demands a
non-empty run of whitespace immediately preceded by one of . ? !; the
second demands two consecutive newlines just before the position. -/
def sentenceBoundary (pre : Str) : Bool :=
  (match pre with
   | c :: _ =>
     wsChar c &&
       (match pre.dropWhile wsChar with
        | p :: _ => p = '.' || p = '?' || p = '!'
        | [] => false)
   | [] => false)
  || (match pre with
      | a :: b :: _ => a = '\n' && b = '\n'
      | _ => false)

/-- Cut flags for String.prototype.split with the zero-width lookbehind
separator: the flag attached to the character at position i says that the
ECMA-262 split algorithm cuts between positions i and i+1 (it never cuts at
the very end, since the matching loop stops before the final position).
revPre is the reversed text before the current character. -/
def cutFlags (revPre : Str) : Str → List Bool
  | [] => []
  | c :: rest =>
    (decide (rest ≠ []) && sentenceBoundary (c :: revPre)) :: cutFlags (c :: revPre) rest

/-- Split a flagged character list into pieces, cutting after every
character whose flag is true. -/
def splitMark : List (Char × Bool) → List (List Char)
  | [] => []
  | (c, g) :: rest =>
    match splitMark rest with
    | [] => [[c]]
    | p :: ps => if g then [c] :: p :: ps else (c :: p) :: ps

/-- The Sentence Splitter of main (lines 155-159): normalize CRLF, split
after sentence boundaries, trim each piece, drop empty pieces. -/
def sentencesOf (input : Str) : List Str :=
  let n := normCRLF input
  ((splitMark (n.zip (cutFlags [] n))).map jsTrim).filter (fun p => !p.isEmpty)

theorem cutFlags_length (revPre l : Str) : (cutFlags revPre l).length = l.length := by
  induction l generalizing revPre with
  | nil => rfl
  | cons c rest ih => simp [cutFlags, ih]

theorem splitMark_flatten (l : List (Char × Bool)) :
    (splitMark l).flatten = l.map Prod.fst := by
  induction l with
  | nil => rfl
  | cons cg rest ih =>
    obtain ⟨c, g⟩ := cg
    simp only [splitMark, List.map]
    cases hps : splitMark rest with
    | nil =>
      rw [hps] at ih
      simp only [List.flatten_nil] at ih
      simp [← ih]
    | cons p ps =>
      rw [hps] at ih
      cases g with
      | true => simpa using ih
      | false =>
        simp only [List.flatten_cons] at ih
        simp [List.flatten_cons, List.cons_append, ih]

theorem mem_of_mem_splitMark {l : List (Char × Bool)} {p : List Char} {c : Char}
    (hp : p ∈ splitMark l) (hc : c ∈ p) : c ∈ l.map Prod.fst := by
  rw [← splitMark_flatten]
  exact List.mem_flatten.mpr ⟨p, hp, hc⟩

theorem mem_normCRLF {c : Char} {l : Str} (h : c ∈ normCRLF l) : c ∈ l := by
  induction l using normCRLF.induct with
  | case1 rest ih =>
    simp only [normCRLF, List.mem_cons] at h
    rcases h with rfl | h
    · simp
    · simp [ih h]
  | case2 c' rest hne ih =>
    simp only [normCRLF, List.mem_cons] at h
    rcases h with rfl | h
    · simp
    · simp [ih h]
  | case3 => simp only [normCRLF] at h; exact h

theorem filter_normCRLF (p : Char → Bool) (hp : p '\r' = false) (hn : p '\n' = false)
    (l : Str) : (normCRLF l).filter p = l.filter p := by
  induction l using normCRLF.induct with
  | case1 rest ih => simp [normCRLF, List.filter, hp, hn, ih]
  | case2 c rest hne ih => simp [normCRLF, List.filter, ih]
  | case3 => rfl

theorem filter_dropWhile_ws (p : Char → Bool) (hp : ∀ c, wsChar c = true → p c = false)
    (l : Str) : (l.dropWhile wsChar).filter p = l.filter p := by
  induction l with
  | nil => rfl
  | cons c rest ih =>
    by_cases hc : wsChar c = true
    · rw [List.dropWhile_cons_of_pos hc, ih, List.filter_cons, hp c hc]
      simp
    · rw [List.dropWhile_cons_of_neg hc]

theorem filter_jsTrim (p : Char → Bool) (hp : ∀ c, wsChar c = true → p c = false)
    (l : Str) : (jsTrim l).filter p = l.filter p := by
  unfold jsTrim
  rw [List.filter_reverse, filter_dropWhile_ws p hp, List.filter_reverse,
    filter_dropWhile_ws p hp, List.reverse_reverse]

theorem flatten_filter_nonempty (L : List (List Char)) :
    (L.filter (fun p => !p.isEmpty)).flatten = L.flatten := by
  induction L with
  | nil => rfl
  | cons p ps ih =>
    cases p with
    | nil => simpa [List.filter] using ih
    | cons c cs => simp [List.filter, ih]

theorem filter_flatten' (p : Char → Bool) (L : List (List Char)) :
    L.flatten.filter p = (L.map (List.filter p)).flatten := by
  induction L with
  | nil => rfl
  | cons q qs ih => simp [List.filter_append, ih]

/-- Claim C5: for all non-empty input within the 200,000-character size
guard, concatenating the Splitter's output sentences and deleting all
whitespace yields exactly the input with all whitespace deleted, in order. -/
theorem splitter_preserves_content (t : Str) (h1 : t ≠ []) (h2 : t.length ≤ 200000) :
    ((sentencesOf t).flatten).filter (fun c => !wsChar c)
      = t.filter (fun c => !wsChar c) := by
  have hp : ∀ c, wsChar c = true → (!wsChar c) = false := by
    intro c hc; rw [hc]; rfl
  unfold sentencesOf
  rw [flatten_filter_nonempty, filter_flatten', List.map_map]
  have hmap : (splitMark ((normCRLF t).zip (cutFlags [] (normCRLF t)))).map
      (List.filter (fun c => !wsChar c) ∘ jsTrim)
      = (splitMark ((normCRLF t).zip (cutFlags [] (normCRLF t)))).map
        (List.filter (fun c => !wsChar c)) := by
    apply List.map_congr_left
    intro piece _
    exact filter_jsTrim _ hp piece
  rw [hmap, ← filter_flatten', splitMark_flatten,
    List.map_fst_zip _ _ (by rw [cutFlags_length])]
  exact filter_normCRLF _ (by rfl) (by rfl) t

/-- Witness for C5 at the concrete input "Hi there. Bye". -/
theorem splitter_preserves_content_witness :
    str "Hi there. Bye" ≠ [] ∧ (str "Hi there. Bye").length ≤ 200000 ∧
      ((sentencesOf (str "Hi there. Bye")).flatten).filter (fun c => !wsChar c)
        = (str "Hi there. Bye").filter (fun c => !wsChar c) :=
  ⟨by decide, by decide,
    splitter_preserves_content (str "Hi there. Bye") (by decide) (by decide)⟩

/-- Boundary condition on the character preceding a match position for the
regex assertion \b: satisfied at the start of the string or after a
non-word character. -/
def prevOK : Option Char → Bool
  | none => true
  | some c => !isWordChar c

/-- Match pattern w at the head of l and require a trailing word boundary:
w is a prefix of l and the character right after it (if any) is a non-word
character. -/
def wordHere (w l : Str) : Bool :=
  match stripPre w l with
  | none => false
  | some [] => true
  | some (c :: _) => !isWordChar c

/-- Scanner for the regex \b(w1|w2|...)\b: some pattern of ws matches at
some position of the string with word boundaries on both sides.  prev is
the character just before the current position (none at the start). -/
def scanW (ws : List Str) : Option Char → Str → Bool
  | _, [] => false
  | prev, c :: rest =>
    (prevOK prev && ws.any (fun w => wordHere w (c :: rest))) || scanW ws (some c) rest

/-- Last character of prefix l, falling back to p when l is empty. -/
def lastO : Option Char → Str → Option Char
  | p, [] => p
  | _, c :: cs => lastO (some c) cs

/-- The regex [0-9]{2,}: two consecutive ASCII digits occur somewhere. -/
def hasTwoDigits : Str → Bool :=
  scanP (fun l => match l with
    | a :: b :: _ => isDigitC a && isDigitC b
    | _ => false)

/-- The regex 202[0-9]: the digits 202 followed by another digit. -/
def has202x : Str → Bool :=
  scanP (fun l => match stripPre (str "202") l with
    | some (c :: _) => isDigitC c
    | _ => false)

/-- The regex [0-9]+%: some digit immediately followed by a percent sign. -/
def hasPercentNum : Str → Bool :=
  scanP (fun l => match l with
    | a :: b :: _ => isDigitC a && b = '%'
    | _ => false)

/-- The word alternatives of the Fact rule (line 44 of the source). -/
def factWords : List Str :=
  [str "version", str "error", str "commit", str "bug", str "issue", str "cron",
   str "workflow"]

/-- The phrase alternatives of the Claim rule (line 46 of the source). -/
def claimPhrases : List Str :=
  [str "should", str "must", str "need to", str "we should", str "recommend",
   str "suggest", str "propose"]

/-- Rule 1 of the Classifier: /[0-9]\x7b2,\x7d|202[0-9]|[0-9]+%/.test(s) or
the case-insensitive whole-word test of factWords. -/
def factTest (s : Str) : Bool :=
  hasTwoDigits s || has202x s || hasPercentNum s || scanW factWords none (jsToLower s)

/-- Rule 2 of the Classifier: the whole-word (boundary-delimited) test of
claimPhrases against the lowercased sentence. -/
def claimTest (s : Str) : Bool := scanW claimPhrases none (jsToLower s)

/-- Match pattern w at the head of l followed by one whitespace character
(the regex fragment w\s). -/
def tokWsHere (w l : Str) : Bool :=
  match stripPre w l with
  | some (c :: _) => wsChar c
  | _ => false

/-- Does the string end with a question mark (the regex \?$ applied to the
already trimmed sentence). -/
def endsQm (l : Str) : Bool :=
  match l.reverse with
  | c :: _ => c = '?'
  | [] => false

/-- Rule 3 of the Classifier, transcribing the source regex
/^\s*who\s|what\s|why\s|how\s/i exactly: because of alternation precedence
only the "who" alternative is anchored at the start; "what", "why" and
"how" (each followed by whitespace) match anywhere in the sentence. -/
def questionTest (s : Str) : Bool :=
  endsQm (jsTrim s)
  || tokWsHere (str "who") ((jsToLower s).dropWhile wsChar)
  || scanP (fun l => [str "what", str "why", str "how"].any (fun w => tokWsHere w l))
       (jsToLower s)

/-- Sentence classifications. -/
inductive Cls
  | fact
  | claim
  | question
deriving DecidableEq

/-- The per-sentence decision of extractFactsAndClaims: first match wins,
default fact. -/
def classify (s : Str) : Cls :=
  if factTest s then .fact
  else if claimTest s then .claim
  else if questionTest s then .question
  else .fact

/-- The three output buckets of the Classifier. -/
structure Decon where
  facts : List Str
  claims : List Str
  questions : List Str
deriving DecidableEq

/-- One iteration of the classification loop: push the trimmed sentence
onto the bucket selected by classify. -/
def deconStep (acc : Decon) (s : Str) : Decon :=
  match classify s with
  | .fact => { acc with facts := acc.facts ++ [jsTrim s] }
  | .claim => { acc with claims := acc.claims ++ [jsTrim s] }
  | .question => { acc with questions := acc.questions ++ [jsTrim s] }

/-- extractFactsAndClaims (lines 39-56 of the source). -/
def extractFactsAndClaims (ss : List Str) : Decon := ss.foldl deconStep ⟨[], [], []⟩

theorem foldl_decon (ss : List Str) (acc : Decon) :
    ss.foldl deconStep acc =
      ⟨acc.facts ++ (ss.filter (fun s => decide (classify s = Cls.fact))).map jsTrim,
       acc.claims ++ (ss.filter (fun s => decide (classify s = Cls.claim))).map jsTrim,
       acc.questions ++ (ss.filter (fun s => decide (classify s = Cls.question))).map jsTrim⟩ := by
  induction ss generalizing acc with
  | nil => cases acc; simp
  | cons s rest ih =>
    simp only [List.foldl_cons]
    rw [ih]
    rcases h : classify s with _ | _ | _ <;>
      simp [deconStep, h, List.filter_cons]

theorem classify_count (ss : List Str) :
    (ss.filter (fun s => decide (classify s = Cls.fact))).length
      + (ss.filter (fun s => decide (classify s = Cls.claim))).length
      + (ss.filter (fun s => decide (classify s = Cls.question))).length
      = ss.length := by
  induction ss with
  | nil => rfl
  | cons s rest ih =>
    rcases h : classify s with _ | _ | _ <;> simp [List.filter_cons, h] <;> omega

/-- Claim C6: the Classifier's three buckets partition the sentence
sequence.  Each bucket is exactly the (trimmed) subsequence of input
sentences whose classification selects it, so each sentence lands in
exactly one bucket, none is dropped or duplicated, relative order is kept
within each bucket, and the bucket sizes sum to the input length. -/
theorem classifier_partition (ss : List Str) :
    (extractFactsAndClaims ss).facts
        = (ss.filter (fun s => decide (classify s = Cls.fact))).map jsTrim
      ∧ (extractFactsAndClaims ss).claims
        = (ss.filter (fun s => decide (classify s = Cls.claim))).map jsTrim
      ∧ (extractFactsAndClaims ss).questions
        = (ss.filter (fun s => decide (classify s = Cls.question))).map jsTrim
      ∧ (extractFactsAndClaims ss).facts.length
          + (extractFactsAndClaims ss).claims.length
          + (extractFactsAndClaims ss).questions.length
        = ss.length := by
  have h := foldl_decon ss ⟨[], [], []⟩
  unfold extractFactsAndClaims
  rw [h]
  refine ⟨by simp, by simp, by simp, ?_⟩
  simpa using classify_count ss

theorem lastO_concat (p : Option Char) (l : Str) (c : Char) :
    lastO p (l ++ [c]) = some c := by
  induction l generalizing p with
  | nil => rfl
  | cons a as ih => exact ih (some a)

theorem scanW_iff (ws : List Str) (prev : Option Char) (l : Str) :
    scanW ws prev l = true ↔
      ∃ l1 w l2, l = l1 ++ l2 ∧ w ∈ ws ∧ l2 ≠ [] ∧ wordHere w l2 = true ∧
        prevOK (lastO prev l1) = true := by
  induction l generalizing prev with
  | nil =>
    simp only [scanW]
    constructor
    · intro h; cases h
    · rintro ⟨l1, w, l2, heq, _, hne, _, _⟩
      exact absurd (List.append_eq_nil.mp heq.symm).2 hne
  | cons c rest ih =>
    simp only [scanW, Bool.or_eq_true, Bool.and_eq_true, List.any_eq_true, ih]
    constructor
    · rintro (⟨hprev, w, hw, hhere⟩ | ⟨l1, w, l2, heq, hw, hne, hhere, hlast⟩)
      · exact ⟨[], w, c :: rest, rfl, hw, by simp, hhere, by simpa [lastO] using hprev⟩
      · exact ⟨c :: l1, w, l2, by rw [heq]; rfl, hw, hne, hhere, by simpa [lastO] using hlast⟩
    · rintro ⟨l1, w, l2, heq, hw, hne, hhere, hlast⟩
      cases l1 with
      | nil =>
        left
        simp only [List.nil_append] at heq
        rw [← heq] at hhere
        exact ⟨by simpa [lastO] using hlast, w, hw, hhere⟩
      | cons a as =>
        right
        simp only [List.cons_append, List.cons.injEq] at heq
        refine ⟨as, w, l2, heq.2, hw, hne, hhere, ?_⟩
        have : a = c := heq.1.symm
        subst this
        simpa [lastO] using hlast

theorem wordHere_iff (w l2 : Str) :
    wordHere w l2 = true ↔
      ∃ r, l2 = w ++ r ∧ (r = [] ∨ ∃ c r', r = c :: r' ∧ isWordChar c = false) := by
  unfold wordHere
  cases hs : stripPre w l2 with
  | none =>
    constructor
    · intro h; cases h
    · rintro ⟨r, rfl, _⟩
      rw [(stripPre_iff w _ r).mpr rfl] at hs
      cases hs
  | some r =>
    have hl2 : l2 = w ++ r := (stripPre_iff _ _ _).mp hs
    cases r with
    | nil =>
      constructor
      · intro _; exact ⟨[], hl2, Or.inl rfl⟩
      · intro _; rfl
    | cons c r' =>
      constructor
      · intro hc
        exact ⟨c :: r', hl2, Or.inr ⟨c, r', rfl, by simpa using hc⟩⟩
      · rintro ⟨r2, heq, hr2⟩
        have hr : c :: r' = r2 := by
          rw [hl2] at heq
          exact List.append_cancel_left heq
        rcases hr2 with rfl | ⟨c2, r2', hcr, hc2⟩
        · cases hr
        · rw [← hr] at hcr
          injection hcr with h1 _
          subst h1
          simp [hc2]

theorem prevOK_lastO_iff (l1 : Str) :
    prevOK (lastO none l1) = true ↔
      l1 = [] ∨ ∃ l c, l1 = l ++ [c] ∧ isWordChar c = false := by
  rcases List.eq_nil_or_concat l1 with rfl | ⟨l, c, rfl⟩
  · simp [lastO, prevOK]
  · simp only [List.concat_eq_append]
    rw [lastO_concat]
    constructor
    · intro h
      exact Or.inr ⟨l, c, rfl, by simpa [prevOK] using h⟩
    · rintro (h | ⟨l', c', heq, hc⟩)
      · exact absurd h (by simp)
      · have h2 : c = c' := by simpa using (List.append_inj' heq (by rfl)).2
        rw [h2]
        simp [prevOK, hc]

/-- Claim C2 (amended): in the code the Claim rule is word-boundary
delimited, not a plain substring test.  For a sentence that did not match
the Fact rule, the Classifier assigns Claim exactly when some phrase of
claimPhrases occurs in the lowercased sentence with a non-word character
(or the string edge) on both sides. -/
theorem claim_rule_boundary (s : Str) (hf : factTest s = false) :
    classify s = Cls.claim ↔
      ∃ l1 w r, jsToLower s = l1 ++ w ++ r ∧ w ∈ claimPhrases ∧
        (l1 = [] ∨ ∃ l c, l1 = l ++ [c] ∧ isWordChar c = false) ∧
        (r = [] ∨ ∃ c r', r = c :: r' ∧ isWordChar c = false) := by
  have hcls : classify s = Cls.claim ↔ claimTest s = true := by
    unfold classify
    rw [hf]
    by_cases hc : claimTest s = true
    · simp [hc]
    · rw [Bool.not_eq_true] at hc
      rw [hc]
      simp only [Bool.false_eq_true, if_false]
      constructor
      · intro h
        by_cases hq : questionTest s = true <;> simp [hq] at h
      · intro h; cases h
  rw [hcls]
  unfold claimTest
  rw [scanW_iff]
  constructor
  · rintro ⟨l1, w, l2, heq, hw, hne, hhere, hlast⟩
    obtain ⟨r, rfl, hr⟩ := (wordHere_iff w l2).mp hhere
    exact ⟨l1, w, r, by rw [heq, List.append_assoc], hw,
      (prevOK_lastO_iff l1).mp hlast, hr⟩
  · rintro ⟨l1, w, r, heq, hw, h1, hr⟩
    have hwne : w ≠ [] := by
      simp only [claimPhrases, List.mem_cons, List.not_mem_nil, or_false] at hw
      rcases hw with rfl | rfl | rfl | rfl | rfl | rfl | rfl <;> decide
    refine ⟨l1, w, w ++ r, by rw [heq, List.append_assoc], hw, ?_, ?_, ?_⟩
    · intro h
      exact hwne (List.append_eq_nil.mp h).1
    · exact (wordHere_iff w (w ++ r)).mpr ⟨r, rfl, hr⟩
    · exact (prevOK_lastO_iff l1).mpr h1

/-- Witness for the amended C2 at the sentence "We should fix the tests". -/
theorem claim_rule_boundary_witness :
    factTest (str "We should fix the tests") = false ∧
      (classify (str "We should fix the tests") = Cls.claim ↔
        ∃ l1 w r, jsToLower (str "We should fix the tests") = l1 ++ w ++ r ∧
          w ∈ claimPhrases ∧
          (l1 = [] ∨ ∃ l c, l1 = l ++ [c] ∧ isWordChar c = false) ∧
          (r = [] ∨ ∃ c r', r = c :: r' ∧ isWordChar c = false)) :=
  ⟨by decide, claim_rule_boundary (str "We should fix the tests") (by decide)⟩

/-- Counterexample to C2 as stated: the lowercased sentence
"Mustard is tasty" contains the trigger "must" as a plain substring and
matches no Fact rule, yet the code does not classify it as Claim (the
word boundary after "must" fails inside "mustard"). -/
theorem claim_rule_boundary_cx :
    factTest (str "Mustard is tasty") = false ∧
      containsSub (jsToLower (str "Mustard is tasty")) (str "must") = true ∧
      classify (str "Mustard is tasty") ≠ Cls.claim := by
  refine ⟨by decide, by decide, by decide⟩

theorem endsQm_iff (l : Str) : endsQm l = true ↔ ∃ l', l = l' ++ ['?'] := by
  unfold endsQm
  constructor
  · intro h
    cases hr : l.reverse with
    | nil => rw [hr] at h; cases h
    | cons c cs =>
      rw [hr] at h
      have hc : c = '?' := of_decide_eq_true h
      refine ⟨cs.reverse, ?_⟩
      rw [List.reverse_eq_iff.mp hr, hc, List.reverse_cons]
  · rintro ⟨l', rfl⟩
    rw [List.reverse_append]
    simp

theorem tokWsHere_iff (w l : Str) :
    tokWsHere w l = true ↔ ∃ c r, l = w ++ c :: r ∧ wsChar c = true := by
  unfold tokWsHere
  cases hs : stripPre w l with
  | none =>
    constructor
    · intro h; cases h
    · rintro ⟨c, r, rfl, _⟩
      rw [(stripPre_iff w _ (c :: r)).mpr rfl] at hs
      cases hs
  | some r0 =>
    have hl : l = w ++ r0 := (stripPre_iff _ _ _).mp hs
    cases r0 with
    | nil =>
      constructor
      · intro h; cases h
      · rintro ⟨c, r, heq, _⟩
        rw [hl] at heq
        cases List.append_cancel_left heq
    | cons c0 r0' =>
      constructor
      · intro h
        exact ⟨c0, r0', hl, h⟩
      · rintro ⟨c, r, heq, hcws⟩
        rw [hl] at heq
        have h2 : (c0 :: r0' : Str) = c :: r := List.append_cancel_left heq
        injection h2 with hh _
        rw [hh]
        exact hcws

theorem dropWhile_append_all (p : Char → Bool) (l l2 : Str)
    (h : ∀ x ∈ l, p x = true) : (l ++ l2).dropWhile p = l2.dropWhile p := by
  induction l with
  | nil => rfl
  | cons a as ih =>
    rw [List.cons_append, List.dropWhile_cons_of_pos (h a (by simp))]
    exact ih (fun x hx => h x (by simp [hx]))

theorem whoStart_iff (s : Str) :
    tokWsHere (str "who") (s.dropWhile wsChar) = true ↔
      ∃ p c r, s = p ++ str "who" ++ c :: r ∧ (∀ x ∈ p, wsChar x = true) ∧
        wsChar c = true := by
  constructor
  · intro h
    obtain ⟨c, r, hd, hcws⟩ := (tokWsHere_iff _ _).mp h
    refine ⟨s.takeWhile wsChar, c, r, ?_, fun x hx => List.mem_takeWhile_imp hx, hcws⟩
    rw [List.append_assoc]
    conv_lhs => rw [← List.takeWhile_append_dropWhile (p := wsChar) (l := s)]
    rw [hd]
  · rintro ⟨p, c, r, rfl, hall, hcws⟩
    rw [List.append_assoc, dropWhile_append_all wsChar p _ hall]
    have hw : (str "who" ++ c :: r).dropWhile wsChar = str "who" ++ c :: r := by
      have h3 : str "who" ++ c :: r = 'w' :: ('h' :: 'o' :: (c :: r)) := rfl
      rw [h3, List.dropWhile_cons_of_neg (by decide)]
    rw [hw]
    exact (tokWsHere_iff _ _).mpr ⟨c, r, rfl, hcws⟩

theorem qContains_iff (s : Str) :
    scanP (fun l => [str "what", str "why", str "how"].any (fun w => tokWsHere w l)) s
        = true ↔
      ∃ w l c r, w ∈ [str "what", str "why", str "how"] ∧ s = l ++ w ++ c :: r ∧
        wsChar c = true := by
  rw [scanP_iff]
  constructor
  · rintro ⟨l1, l2, rfl, hne, hchk⟩
    simp only [List.any_eq_true] at hchk
    obtain ⟨w, hw, ht⟩ := hchk
    obtain ⟨c, r, rfl, hcws⟩ := (tokWsHere_iff w l2).mp ht
    exact ⟨w, l1, c, r, hw, (List.append_assoc l1 w (c :: r)).symm, hcws⟩
  · rintro ⟨w, l, c, r, hw, heq, hcws⟩
    refine ⟨l, w ++ c :: r, by rw [heq, List.append_assoc], ?_, ?_⟩
    · cases w with
      | nil => simp
      | cons a as => simp
    · simp only [List.any_eq_true]
      exact ⟨w, hw, (tokWsHere_iff w _).mpr ⟨c, r, rfl, hcws⟩⟩

/-- Claim C1 (amended): for a sentence that matched neither the Fact rule
nor the Claim rule, the Classifier assigns Question exactly when the
trimmed sentence ends with a question mark, or the sentence starts with
optional whitespace then "who" followed by whitespace, or it contains
"what", "why" or "how" followed by a whitespace character anywhere (all
case-insensitively).  Because of the alternation precedence in the source
regex, only "who" is anchored at the start; an interior occurrence of
"what", "why" or "how" followed by whitespace also yields Question. -/
theorem question_rule (s : Str) (hf : factTest s = false) (hc : claimTest s = false) :
    classify s = Cls.question ↔
      (∃ l', jsTrim s = l' ++ ['?']) ∨
      (∃ p c r, jsToLower s = p ++ str "who" ++ c :: r ∧
        (∀ x ∈ p, wsChar x = true) ∧ wsChar c = true) ∨
      (∃ w l c r, w ∈ [str "what", str "why", str "how"] ∧
        jsToLower s = l ++ w ++ c :: r ∧ wsChar c = true) := by
  have hcls : classify s = Cls.question ↔ questionTest s = true := by
    unfold classify
    rw [hf, hc]
    by_cases hq : questionTest s = true
    · simp [hq]
    · rw [Bool.not_eq_true] at hq
      rw [hq]
      simp
  rw [hcls]
  unfold questionTest
  rw [Bool.or_eq_true, Bool.or_eq_true, endsQm_iff, whoStart_iff, qContains_iff,
    or_assoc]

/-- Witness for the amended C1 at the sentence "How strange it seems". -/
theorem question_rule_witness :
    factTest (str "How strange it seems") = false ∧
      claimTest (str "How strange it seems") = false ∧
      (classify (str "How strange it seems") = Cls.question ↔
        (∃ l', jsTrim (str "How strange it seems") = l' ++ ['?']) ∨
        (∃ p c r, jsToLower (str "How strange it seems") = p ++ str "who" ++ c :: r ∧
          (∀ x ∈ p, wsChar x = true) ∧ wsChar c = true) ∨
        (∃ w l c r, w ∈ [str "what", str "why", str "how"] ∧
          jsToLower (str "How strange it seems") = l ++ w ++ c :: r ∧
          wsChar c = true)) :=
  ⟨by decide, by decide,
    question_rule (str "How strange it seems") (by decide) (by decide)⟩

/-- Modelled from the claim's words (the spec side of C1, for comparison
with the code): the sentence case-insensitively STARTS with "who", "what",
"why" or "how" followed by whitespace. -/
def questionStartPerSpec (s : Str) : Bool :=
  [str "who", str "what", str "why", str "how"].any
    (fun w => tokWsHere w (jsToLower s))

/-- Counterexample to C1 as stated: "It was somewhat late" matches neither
the Fact nor the Claim rule, does not end with a question mark and does
not start with an interrogative word, yet the code classifies it as
Question because "what " occurs in the interior (inside "somewhat "). -/
theorem question_rule_cx :
    factTest (str "It was somewhat late") = false ∧
      claimTest (str "It was somewhat late") = false ∧
      classify (str "It was somewhat late") = Cls.question ∧
      endsQm (jsTrim (str "It was somewhat late")) = false ∧
      questionStartPerSpec (str "It was somewhat late") = false := by
  refine ⟨by decide, by decide, by decide, by decide, by decide⟩

/-- Curly-quote normalization from tokenizeWords:
replace(/[‘’“”]/g, a straight apostrophe). -/
def normQuote (c : Char) : Char :=
  if c = Char.ofNat 8216 || c = Char.ofNat 8217 || c = Char.ofNat 8220
      || c = Char.ofNat 8221
  then Char.ofNat 39 else c

/-- Character filter from tokenizeWords: every character that is not a
lowercase ASCII letter, digit, apostrophe, whitespace or hyphen is
replaced by a space. -/
def keepOrSpace (c : Char) : Char :=
  if ('a' ≤ c && c ≤ 'z') || isDigitC c || c = Char.ofNat 39 || c = '-' || wsChar c
  then c else ' '

/-- split(/\s+/) followed by filter(Boolean): the maximal whitespace-free
runs of the string.  cur holds the current token reversed. -/
def splitWsAux (cur : Str) : Str → List Str
  | [] => if cur.isEmpty then [] else [cur.reverse]
  | c :: rest =>
    if wsChar c then
      if cur.isEmpty then splitWsAux [] rest else cur.reverse :: splitWsAux [] rest
    else splitWsAux (c :: cur) rest

/-- tokenizeWords (lines 30-37 of the source). -/
def tokenizeWords (t : Str) : List Str :=
  splitWsAux [] (((t.map lowerChar).map normQuote).map keepOrSpace)

/-- The fixed stopword set (lines 17-19 of the source). -/
def STOPWORDS : List Str :=
  [str "the", str "a", str "an", str "and", str "or", str "but", str "if",
   str "then", str "else", str "for", str "to", str "of", str "in", str "on",
   str "with", str "by", str "is", str "are", str "was", str "were", str "be",
   str "been", str "it", str "that", str "this", str "these", str "those",
   str "as", str "at", str "from", str "we", str "you", str "they", str "he",
   str "she", str "i", str "my", str "our", str "your"]

/-- The guard inside scoreKeywords' accumulation loop: a word contributes
only if it is not a stopword and is longer than two characters. -/
def keepTok (w : Str) : Bool := decide (w ∉ STOPWORDS) && decide (2 < w.length)

/-- Property keys of the freq object in creation (first-seen) order. -/
def keysOf (ws : List Str) : List Str :=
  ws.foldl (fun ks w => if w ∈ ks then ks else ks ++ [w]) []

/-- Decimal value of a digit string. -/
def natVal (t : Str) : Nat := t.foldl (fun a c => 10 * a + (c.toNat - 48)) 0

/-- ECMA-262 array-index keys: canonical decimal numerals whose value is
below 2^32 - 1.  Object.entries enumerates these before all other string
keys, in ascending numeric order. -/
def isArrayIndexKey (t : Str) : Bool :=
  t.all isDigitC
    && (match t with
        | [] => false
        | [_] => true
        | c :: _ => decide (c ≠ '0'))
    && decide (natVal t < 4294967295)

/-- Stable insertion for insertion sort: x is placed before the first
element y that is not strictly prior to it (gt y x = false), so equal
elements keep their original relative order — the stability guaranteed for
Array.prototype.sort since ES2019. -/
def insStable {α : Type _} (gt : α → α → Bool) (x : α) : List α → List α
  | [] => [x]
  | y :: ys => if gt y x then y :: insStable gt x ys else x :: y :: ys

/-- Stable insertion sort with strict priority order gt. -/
def sortStable {α : Type _} (gt : α → α → Bool) : List α → List α
  | [] => []
  | x :: xs => insStable gt x (sortStable gt xs)

/-- Key enumeration order of Object.entries applied to the freq object
(OrdinaryOwnPropertyKeys): array-index keys in ascending numeric order
first, then the remaining keys in creation order. -/
def jsEntryKeys (ws : List Str) : List Str :=
  sortStable (fun a b => decide (natVal a < natVal b))
      ((keysOf ws).filter isArrayIndexKey)
    ++ (keysOf ws).filter (fun k => !isArrayIndexKey k)

/-- The count accumulated for key k by the forEach loop. -/
def countOf (ws : List Str) (k : Str) : Nat := ws.countP (fun v => decide (v = k))

/-- Object.entries(freq) after the accumulation loop. -/
def jsEntries (ws : List Str) : List (Str × Nat) :=
  (jsEntryKeys ws).map (fun k => (k, countOf ws k))

/-- One ranked keyword of the report. -/
structure Keyword where
  keyword : Str
  count : Nat
deriving DecidableEq

/-- The sort comparator (a,b) => b[1] - a[1] as a strict priority: y is
strictly prior to x when y's count is larger. -/
def countGT (y x : Str × Nat) : Bool := decide (x.2 < y.2)

/-- scoreKeywords (lines 58-66 of the source): filter by the guard,
accumulate counts, sort entries by descending count (stable), keep the
first 12. -/
def scoreKeywords (words : List Str) : List Keyword :=
  ((sortStable countGT (jsEntries (words.filter keepTok))).take 12).map
    (fun e => ⟨e.1, e.2⟩)

theorem mem_insStable {α : Type _} (gt : α → α → Bool) (x a : α) (l : List α) :
    a ∈ insStable gt x l ↔ a = x ∨ a ∈ l := by
  induction l with
  | nil => simp [insStable]
  | cons y ys ih =>
    simp only [insStable]
    by_cases hgt : gt y x = true
    · rw [if_pos hgt]
      simp only [List.mem_cons, ih]
      tauto
    · rw [if_neg hgt]
      simp only [List.mem_cons]

theorem mem_sortStable {α : Type _} (gt : α → α → Bool) (a : α) (l : List α) :
    a ∈ sortStable gt l ↔ a ∈ l := by
  induction l with
  | nil => simp [sortStable]
  | cons x xs ih =>
    simp only [sortStable, mem_insStable, ih, List.mem_cons]

theorem pairwise_insStable_count (x : Str × Nat) (l : List (Str × Nat))
    (h : l.Pairwise (fun a b => b.2 ≤ a.2)) :
    (insStable countGT x l).Pairwise (fun a b => b.2 ≤ a.2) := by
  induction l with
  | nil => simp [insStable]
  | cons y ys ih =>
    rw [List.pairwise_cons] at h
    obtain ⟨hy, hys⟩ := h
    simp only [insStable]
    by_cases hgt : countGT y x = true
    · rw [if_pos hgt]
      rw [List.pairwise_cons]
      refine ⟨?_, ih hys⟩
      intro z hz
      rcases (mem_insStable countGT x z ys).mp hz with rfl | hz'
      · exact le_of_lt (of_decide_eq_true hgt)
      · exact hy z hz'
    · rw [if_neg hgt]
      have hxy : y.2 ≤ x.2 := by
        have := of_decide_eq_false (Bool.not_eq_true _ ▸ hgt)
        omega
      rw [List.pairwise_cons]
      refine ⟨?_, List.pairwise_cons.mpr ⟨hy, hys⟩⟩
      intro z hz
      rcases List.mem_cons.mp hz with rfl | hz'
      · exact hxy
      · exact le_trans (hy z hz') hxy

theorem pairwise_sortStable_count (l : List (Str × Nat)) :
    (sortStable countGT l).Pairwise (fun a b => b.2 ≤ a.2) := by
  induction l with
  | nil => simp [sortStable]
  | cons x xs ih => exact pairwise_insStable_count x _ ih

theorem filter_insStable_count (c : Nat) (x : Str × Nat) (l : List (Str × Nat)) :
    (insStable countGT x l).filter (fun e => decide (e.2 = c))
      = if x.2 = c then x :: l.filter (fun e => decide (e.2 = c))
        else l.filter (fun e => decide (e.2 = c)) := by
  induction l with
  | nil =>
    by_cases hx : x.2 = c <;> simp [insStable, List.filter, hx]
  | cons y ys ih =>
    simp only [insStable]
    by_cases hgt : countGT y x = true
    · have hlt : x.2 < y.2 := of_decide_eq_true hgt
      rw [if_pos hgt, List.filter_cons, ih]
      by_cases hx : x.2 = c
      · have hy : ¬(y.2 = c) := by omega
        rw [if_pos hx, List.filter_cons]
        simp [hy, hx]
      · rw [if_neg hx, List.filter_cons]
        by_cases hy : y.2 = c <;> simp [hy, hx]
    · rw [if_neg hgt, List.filter_cons]
      by_cases hx : x.2 = c <;> simp [hx]

theorem filter_sortStable_count (c : Nat) (l : List (Str × Nat)) :
    (sortStable countGT l).filter (fun e => decide (e.2 = c))
      = l.filter (fun e => decide (e.2 = c)) := by
  induction l with
  | nil => rfl
  | cons x xs ih =>
    simp only [sortStable]
    rw [filter_insStable_count, List.filter_cons]
    by_cases hx : x.2 = c
    · rw [if_pos hx, ih]
      simp [hx]
    · rw [if_neg hx, ih]
      simp [hx]

theorem mem_keysOf_aux (ws : List Str) (acc : List Str) (k : Str)
    (h : k ∈ ws.foldl (fun ks w => if w ∈ ks then ks else ks ++ [w]) acc) :
    k ∈ acc ∨ k ∈ ws := by
  induction ws generalizing acc with
  | nil => exact Or.inl h
  | cons w ws' ih =>
    simp only [List.foldl_cons] at h
    rcases ih _ h with hacc | hws
    · by_cases hw : w ∈ acc
      · rw [if_pos hw] at hacc
        exact Or.inl hacc
      · rw [if_neg hw] at hacc
        rcases List.mem_append.mp hacc with h1 | h1
        · exact Or.inl h1
        · simp only [List.mem_singleton] at h1
          subst h1
          exact Or.inr (by simp)
    · exact Or.inr (by simp [hws])

theorem mem_of_mem_keysOf {ws : List Str} {k : Str} (h : k ∈ keysOf ws) : k ∈ ws := by
  rcases mem_keysOf_aux ws [] k h with h1 | h1
  · cases h1
  · exact h1

theorem mem_of_mem_jsEntryKeys {ws : List Str} {k : Str} (h : k ∈ jsEntryKeys ws) :
    k ∈ ws := by
  unfold jsEntryKeys at h
  rcases List.mem_append.mp h with h1 | h1
  · exact mem_of_mem_keysOf (List.mem_of_mem_filter ((mem_sortStable _ _ _).mp h1))
  · exact mem_of_mem_keysOf (List.mem_of_mem_filter h1)

/-- Claim C7: the Keyword Scorer's output has length at most 12, its
counts are non-increasing from first to last, and no entry is a stopword
or has length two or less. -/
theorem keyword_scorer_bounds (words : List Str) :
    (scoreKeywords words).length ≤ 12
      ∧ (scoreKeywords words).Pairwise (fun a b => b.count ≤ a.count)
      ∧ ∀ kw ∈ scoreKeywords words, kw.keyword ∉ STOPWORDS ∧ 2 < kw.keyword.length := by
  refine ⟨?_, ?_, ?_⟩
  · rw [scoreKeywords, List.length_map]
    exact le_trans (List.length_take_le _ _) (le_refl _)
  · rw [scoreKeywords]
    rw [List.pairwise_map]
    exact ((pairwise_sortStable_count _).sublist (List.take_sublist _ _))
  · intro kw hkw
    rw [scoreKeywords] at hkw
    obtain ⟨e, he, rfl⟩ := List.mem_map.mp hkw
    have he2 : e ∈ sortStable countGT (jsEntries (words.filter keepTok)) :=
      List.mem_of_mem_take he
    have he3 : e ∈ jsEntries (words.filter keepTok) := (mem_sortStable _ _ _).mp he2
    obtain ⟨k, hk, rfl⟩ := List.mem_map.mp he3
    have hk2 : k ∈ words.filter keepTok := mem_of_mem_jsEntryKeys hk
    have hk3 : keepTok k = true := List.of_mem_filter hk2
    unfold keepTok at hk3
    rw [Bool.and_eq_true, decide_eq_true_eq, decide_eq_true_eq] at hk3
    exact hk3

/-- Claim C3 (amended): the sort of the Keyword Scorer is stable, but the
order it stabilizes is the enumeration order of the frequency object, not
plain first-seen order: array-index-like tokens (canonical decimal
numerals such as "404") enumerate first in ascending numeric order, and
only the remaining tokens follow in first-seen order.  Among keywords of
equal count, the output is a prefix of the entry enumeration restricted to
that count. -/
theorem keyword_tie_stability (words : List Str) (c : Nat) :
    ∃ t, (((scoreKeywords words).filter (fun kw => decide (kw.count = c))).map
            Keyword.keyword) ++ t
      = ((jsEntries (words.filter keepTok)).filter
            (fun e => decide (e.2 = c))).map Prod.fst := by
  rw [scoreKeywords]
  rw [List.filter_map]
  have hcomp : ((sortStable countGT (jsEntries (words.filter keepTok))).take 12).filter
        ((fun kw : Keyword => decide (kw.count = c)) ∘ (fun e : Str × Nat => ⟨e.1, e.2⟩))
      = ((sortStable countGT (jsEntries (words.filter keepTok))).take 12).filter
        (fun e => decide (e.2 = c)) := by
    apply List.filter_congr
    intro e _
    rfl
  rw [hcomp, List.map_map]
  have hmap : ((Keyword.keyword ∘ fun e : Str × Nat => (⟨e.1, e.2⟩ : Keyword)))
      = Prod.fst := by
    funext e
    rfl
  rw [hmap]
  refine ⟨(((sortStable countGT (jsEntries (words.filter keepTok))).drop 12).filter
      (fun e => decide (e.2 = c))).map Prod.fst, ?_⟩
  rw [← List.map_append, ← List.filter_append, List.take_append_drop,
    filter_sortStable_count]

/-- Counterexample to C3 as stated: in the tokenized text "apple 404" the
tokens apple and 404 tie with count 1 and apple is seen first, yet the
scorer outputs 404 before apple, because "404" is an array-index key of
the frequency object and therefore enumerates first. -/
theorem keyword_tie_stability_cx :
    scoreKeywords (tokenizeWords (str "apple 404"))
        = [⟨str "404", 1⟩, ⟨str "apple", 1⟩]
      ∧ keysOf ((tokenizeWords (str "apple 404")).filter keepTok)
        = [str "apple", str "404"] := by
  refine ⟨by decide, by decide⟩

/-- Record pushed onto the matched list of identifyFocalPoints: the
trimmed sentence, the matched top keywords, and the raw sentence length. -/
structure Matched where
  sentence : Str
  matchList : List Str
  length : Nat
deriving DecidableEq

/-- A sentence-kind focal point of the report. -/
structure FocalPoint where
  id : Str
  summary : Str
  triggers : List Str
deriving DecidableEq

/-- A keyword-kind (micro) focal point of the report. -/
structure MicroPoint where
  id : Str
  keyword : Str
deriving DecidableEq

/-- Output of identifyFocalPoints. -/
structure FocalPoints where
  focal : List FocalPoint
  micro : List MicroPoint
deriving DecidableEq

/-- The sort comparator of identifyFocalPoints,
(a,b) => (b.matchList.length - a.matchList.length) || (b.length - a.length),
as a strict priority: y is strictly prior to x when it matches more
keywords, or matches equally many and is longer. -/
def matchGT (y x : Matched) : Bool :=
  decide (x.matchList.length < y.matchList.length)
    || (decide (y.matchList.length = x.matchList.length) && decide (x.length < y.length))

/-- Decimal representation of a number, as used in template ids. -/
def natStr (n : Nat) : Str := (Nat.repr n).data

/-- Identifier F{n} of a sentence-kind focal point. -/
def fId (n : Nat) : Str := 'F' :: natStr n

/-- Identifier K{n} of a keyword-kind focal point. -/
def kId (n : Nat) : Str := 'K' :: natStr n

/-- Assign ids F{i+1} in ranked order. -/
def numberF : Nat → List Matched → List FocalPoint
  | _, [] => []
  | i, m :: ms => ⟨fId (i + 1), m.sentence, m.matchList⟩ :: numberF (i + 1) ms

/-- Assign ids K{i+1} to the top keywords. -/
def numberK : Nat → List Str → List MicroPoint
  | _, [] => []
  | i, k :: ks => ⟨kId (i + 1), k⟩ :: numberK (i + 1) ks

/-- The top keywords of identifyFocalPoints:
keywords.slice(0, Math.min(6, keywords.length)).map(k => k.keyword). -/
def topKeywords (keywords : List Keyword) : List Str :=
  (keywords.take (min 6 keywords.length)).map Keyword.keyword

/-- The matched-sentence accumulation loop of identifyFocalPoints: for
each sentence, the top keywords contained (as substrings) in its
lowercased text; sentences with no match are skipped. -/
def matchedOf (sentences : List Str) (topK : List Str) : List Matched :=
  sentences.filterMap (fun s =>
    if (topK.filter (fun k => containsSub (jsToLower s) k)).isEmpty then none
    else some ⟨jsTrim s, topK.filter (fun k => containsSub (jsToLower s) k), s.length⟩)

/-- identifyFocalPoints (lines 68-88 of the source). -/
def identifyFocalPoints (sentences : List Str) (keywords : List Keyword) : FocalPoints :=
  ⟨numberF 0 ((sortStable matchGT (matchedOf sentences (topKeywords keywords))).take 5),
   numberK 0 (topKeywords keywords)⟩

theorem numberF_mem {i : Nat} {l : List Matched} {fp : FocalPoint}
    (h : fp ∈ numberF i l) :
    ∃ m, m ∈ l ∧ fp.summary = m.sentence ∧ fp.triggers = m.matchList := by
  induction l generalizing i with
  | nil => cases h
  | cons m ms ih =>
    rcases List.mem_cons.mp h with rfl | h'
    · exact ⟨m, by simp, rfl, rfl⟩
    · obtain ⟨m', hm', h1, h2⟩ := ih h'
      exact ⟨m', by simp [hm'], h1, h2⟩

/-- Claim C9: each sentence-kind focal point's triggers list is the top-6
keyword list filtered to the keywords contained in the lowercased source
sentence — i.e. ordered by keyword rank, not by position of occurrence in
the sentence. -/
theorem focal_trigger_order (ss : List Str) (kws : List Keyword) (fp : FocalPoint)
    (h : fp ∈ (identifyFocalPoints ss kws).focal) :
    ∃ s, s ∈ ss ∧ fp.summary = jsTrim s ∧
      fp.triggers = (topKeywords kws).filter (fun k => containsSub (jsToLower s) k) := by
  unfold identifyFocalPoints at h
  simp only at h
  obtain ⟨m, hm, hsum, htrig⟩ := numberF_mem h
  have hm2 : m ∈ sortStable matchGT (matchedOf ss (topKeywords kws)) :=
    List.mem_of_mem_take hm
  have hm3 : m ∈ matchedOf ss (topKeywords kws) := (mem_sortStable _ _ _).mp hm2
  obtain ⟨s, hs, hsome⟩ := List.mem_filterMap.mp hm3
  by_cases hemp :
      ((topKeywords kws).filter (fun k => containsSub (jsToLower s) k)).isEmpty = true
  · rw [if_pos hemp] at hsome
    cases hsome
  · rw [if_neg hemp] at hsome
    injection hsome with hsome'
    refine ⟨s, hs, ?_, ?_⟩
    · rw [hsum, ← hsome']
    · rw [htrig, ← hsome']

/-- Witness for C9 at a one-sentence, one-keyword input. -/
theorem focal_trigger_order_witness :
    (⟨str "F1", str "token bug", [str "token"]⟩ : FocalPoint)
        ∈ (identifyFocalPoints [str "token bug"] [⟨str "token", 1⟩]).focal
      ∧ ∃ s, s ∈ [str "token bug"] ∧
          (⟨str "F1", str "token bug", [str "token"]⟩ : FocalPoint).summary = jsTrim s ∧
          (⟨str "F1", str "token bug", [str "token"]⟩ : FocalPoint).triggers
            = (topKeywords [⟨str "token", 1⟩]).filter
                (fun k => containsSub (jsToLower s) k) :=
  ⟨by decide,
    focal_trigger_order [str "token bug"] [⟨str "token", 1⟩]
      ⟨str "F1", str "token bug", [str "token"]⟩ (by decide)⟩

/-- One rearchitecture entry of the report. -/
structure RearchEntry where
  id : Str
  problem : Str
  proposals : List Str
  principles : List Str
deriving DecidableEq

/-- Action strings of reArchitect, in source order. -/
def actTriage : Str := str "Triage: reproduce, add labels, assign owner, prioritize."

def actAutomate : Str :=
  str "Automate: create a minimal workflow to notify assignees only when label + unassigned."

def actSecAudit : Str :=
  str "Security audit: list workflows that use tokens; restrict job permissions; rotate tokens."

def actSecInstr : Str :=
  str "Instrument: add verbose logging and dry-run option before any push actions."

def actValidate : Str :=
  str "Validate: ensure email sending does not perform git operations; use read-only tokens for notifications."

def actFallback : Str :=
  str "Fallback: add a non-invasive channel (issue comment) as backup notification."

def actClarify : Str :=
  str "Ask clarifying question about intent and constraints; propose a minimal PoC (one-file) to test."

/-- The constant principle labels attached to every proposal. -/
def principleLabels : List Str :=
  [str "Simple", str "Efficient", str "Pragmatic", str "Safe"]

/-- The action accumulation of reArchitect for one lowercased focal
sentence: the three trigger groups are evaluated independently, in fixed
order (issue/bug/label group, then workflow group, then email group). -/
def actionsFor (s : Str) : List Str :=
  (if containsSub s (str "issue") || containsSub s (str "bug")
      || containsSub s (str "label")
   then [actTriage, actAutomate] else [])
  ++ (if containsSub s (str "workflow") || containsSub s (str "cron")
        || containsSub s (str "gh token") || containsSub s (str "secret")
      then [actSecAudit, actSecInstr] else [])
  ++ (if containsSub s (str "email") || containsSub s (str "notify")
      then [actValidate, actFallback] else [])

/-- The proposal built for one focal point: the accumulated actions (or
the clarification fallback when no group matched) truncated to 3, plus
the four constant principles. -/
def proposalFor (fp : FocalPoint) : RearchEntry :=
  ⟨fp.id, fp.summary,
    (if (actionsFor (jsToLower fp.summary)).isEmpty then [actClarify]
     else actionsFor (jsToLower fp.summary)).take 3,
    principleLabels⟩

/-- reArchitect (lines 90-119 of the source). -/
def reArchitect (fps : FocalPoints) : List RearchEntry := fps.focal.map proposalFor

/-- Claim C4 (amended): a sentence-kind focal point whose summary contains
"gh token" and "secret" gets both security-audit/instrumentation actions
among its at most 3 proposals, provided its summary contains none of
"issue", "bug", "label" — when that first group also matches, its two
actions fill the leading slots and the truncation to 3 cuts off the
second security action. -/
theorem focal_security_actions (fps : FocalPoints) (fp : FocalPoint)
    (hm : fp ∈ fps.focal)
    (hg : containsSub (jsToLower fp.summary) (str "gh token") = true)
    (hs : containsSub (jsToLower fp.summary) (str "secret") = true)
    (hi : containsSub (jsToLower fp.summary) (str "issue") = false)
    (hb : containsSub (jsToLower fp.summary) (str "bug") = false)
    (hl : containsSub (jsToLower fp.summary) (str "label") = false) :
    proposalFor fp ∈ reArchitect fps
      ∧ (proposalFor fp).proposals.length ≤ 3
      ∧ actSecAudit ∈ (proposalFor fp).proposals
      ∧ actSecInstr ∈ (proposalFor fp).proposals := by
  refine ⟨List.mem_map_of_mem proposalFor hm, ?_, ?_, ?_⟩
  · unfold proposalFor
    exact le_trans (List.length_take_le _ _) (le_refl _)
  · unfold proposalFor actionsFor
    simp [hg, hs, hi, hb, hl]
  · unfold proposalFor actionsFor
    simp [hg, hs, hi, hb, hl]

/-- Witness for the amended C4 at a concrete focal point. -/
theorem focal_security_actions_witness :
    (⟨str "F1", str "the gh token secret", [str "secret"]⟩ : FocalPoint)
        ∈ (⟨[⟨str "F1", str "the gh token secret", [str "secret"]⟩], []⟩ :
            FocalPoints).focal
      ∧ containsSub (jsToLower (str "the gh token secret")) (str "gh token") = true
      ∧ containsSub (jsToLower (str "the gh token secret")) (str "secret") = true
      ∧ (proposalFor ⟨str "F1", str "the gh token secret", [str "secret"]⟩
            ∈ reArchitect ⟨[⟨str "F1", str "the gh token secret", [str "secret"]⟩], []⟩
          ∧ (proposalFor ⟨str "F1", str "the gh token secret",
              [str "secret"]⟩).proposals.length ≤ 3
          ∧ actSecAudit ∈ (proposalFor ⟨str "F1", str "the gh token secret",
              [str "secret"]⟩).proposals
          ∧ actSecInstr ∈ (proposalFor ⟨str "F1", str "the gh token secret",
              [str "secret"]⟩).proposals) :=
  ⟨by decide, by decide, by decide,
    focal_security_actions ⟨[⟨str "F1", str "the gh token secret", [str "secret"]⟩], []⟩
      ⟨str "F1", str "the gh token secret", [str "secret"]⟩
      (by decide) (by decide) (by decide) (by decide) (by decide) (by decide)⟩

/-- Counterexample to C4 as stated: in the full pipeline run on
"bug gh token secret thing", the single sentence contains both "gh token"
and "secret" and becomes focal point F1, yet its proposal list holds only
one of the two security actions — the issue/bug group matched first, its
two actions fill the leading slots, and the truncation to 3 drops the
second security action. -/
theorem focal_security_actions_cx :
    ((reArchitect (identifyFocalPoints (sentencesOf (str "bug gh token secret thing"))
          (scoreKeywords (tokenizeWords (str "bug gh token secret thing"))))).map
        RearchEntry.proposals) = [[actTriage, actAutomate, actSecAudit]]
      ∧ ((identifyFocalPoints (sentencesOf (str "bug gh token secret thing"))
          (scoreKeywords (tokenizeWords (str "bug gh token secret thing")))).focal.map
            (fun fp => containsSub (jsToLower fp.summary) (str "gh token")))
        = [true]
      ∧ ((identifyFocalPoints (sentencesOf (str "bug gh token secret thing"))
          (scoreKeywords (tokenizeWords (str "bug gh token secret thing")))).focal.map
            (fun fp => containsSub (jsToLower fp.summary) (str "secret")))
        = [true]
      ∧ actSecInstr ∉ [actTriage, actAutomate, actSecAudit] := by
  refine ⟨by decide, by decide, by decide, by decide⟩

/-- The assembled report of summarizeJSON.  The ISO-8601 timestamp of the
meta block is an I/O effect (new Date()) outside this pure model;
sourceSize is the input's character length. -/
structure Report where
  sourceSize : Nat
  deconstruction : Decon
  keywords : List Keyword
  focalPoints : FocalPoints
  rearchitecture : List RearchEntry
deriving DecidableEq

/-- The processing pipeline of main after input acquisition and the size
guard (lines 154-167 of the source). -/
def pipeline (input : Str) : Report :=
  ⟨input.length,
   extractFactsAndClaims (sentencesOf input),
   scoreKeywords (tokenizeWords input),
   identifyFocalPoints (sentencesOf input) (scoreKeywords (tokenizeWords input)),
   reArchitect (identifyFocalPoints (sentencesOf input)
     (scoreKeywords (tokenizeWords input)))⟩

/-- Possible outcomes of one run of main: the two guarded failures, or a
completed report (which main both prints and writes to a file). -/
inductive RunResult
  | missingInput
  | tooLarge
  | success (r : Report)
deriving DecidableEq

/-- Exit codes of the failure branches (process.exit(2), process.exit(3));
a successful run exits normally. -/
def exitCodeOf : RunResult → Nat
  | .missingInput => 2
  | .tooLarge => 3
  | .success _ => 0

/-- main (lines 134-177 of the source), modelled from the point where the
input text has been acquired: input is none when no source produced text.
The guard if (!input) also fires on an empty string (JavaScript
falsiness); the size guard rejects length above 200000; otherwise the
pipeline runs to completion and the report is produced. -/
def mainModel (input : Option Str) : RunResult :=
  match input with
  | none => .missingInput
  | some t =>
    if t.isEmpty then .missingInput
    else if 200000 < t.length then .tooLarge
    else .success (pipeline t)

/-- Claim C8: the run fails with InputMissing (exit code 2) exactly when
no text was obtained (no source, or the empty string), fails with
InputTooLarge (exit code 3) exactly when the obtained text exceeds
200000 characters, and otherwise completes with the full report — the
failure branches never build a report, so no incomplete report exists. -/
theorem input_guards (input : Option Str) :
    (mainModel input = RunResult.missingInput ↔ input = none ∨ input = some [])
      ∧ (mainModel input = RunResult.tooLarge ↔
          ∃ t, input = some t ∧ t ≠ [] ∧ 200000 < t.length)
      ∧ (∀ t, input = some t → t ≠ [] → t.length ≤ 200000 →
          mainModel input = RunResult.success (pipeline t))
      ∧ exitCodeOf RunResult.missingInput = 2
      ∧ exitCodeOf RunResult.tooLarge = 3 := by
  refine ⟨?_, ?_, ?_, rfl, rfl⟩
  · cases input with
    | none => simp [mainModel]
    | some t =>
      cases t with
      | nil => simp [mainModel]
      | cons c cs =>
        simp only [mainModel, List.isEmpty_cons, Bool.false_eq_true, if_false]
        constructor
        · intro h
          split at h <;> cases h
        · rintro (h | h)
          · cases h
          · simp at h
  · cases input with
    | none => simp [mainModel]
    | some t =>
      cases t with
      | nil => simp [mainModel]
      | cons c cs =>
        simp only [mainModel, List.isEmpty_cons, Bool.false_eq_true, if_false]
        constructor
        · intro h
          split at h
          next hcond => exact ⟨c :: cs, rfl, by simp, hcond⟩
          next => cases h
        · rintro ⟨t, ht, hne, hlen⟩
          injection ht with ht'
          subst ht'
          rw [if_pos hlen]
  · rintro t rfl hne hlen
    cases t with
    | nil => exact absurd rfl hne
    | cons c cs =>
      simp only [mainModel, List.isEmpty_cons, Bool.false_eq_true, if_false]
      rw [if_neg (by omega)]

theorem lowerChar_ws {c : Char} (hc : wsChar c = true) : lowerChar c = c := by
  have hn : ¬(c.toNat ≥ 65 ∧ c.toNat ≤ 90) := by
    unfold wsChar at hc
    simp only [Bool.or_eq_true, Bool.and_eq_true, decide_eq_true_eq] at hc
    rcases hc with h | ⟨h1, h2⟩
    · simp only [List.mem_cons, List.not_mem_nil, or_false] at h
      omega
    · omega
  unfold lowerChar Char.toLower
  exact if_neg hn

theorem normQuote_ws {c : Char} (hc : wsChar c = true) : normQuote c = c := by
  by_cases h : (c = Char.ofNat 8216 || c = Char.ofNat 8217 || c = Char.ofNat 8220
      || c = Char.ofNat 8221) = true
  · exfalso
    simp only [Bool.or_eq_true, decide_eq_true_eq] at h
    rcases h with ((rfl | rfl) | rfl) | rfl <;> exact absurd hc (by decide)
  · rw [Bool.not_eq_true] at h
    unfold normQuote
    simp [h]

theorem keepOrSpace_ws {c : Char} (hc : wsChar c = true) : keepOrSpace c = c := by
  unfold keepOrSpace
  simp [hc]

theorem splitWsAux_all_ws (l : Str) (h : ∀ c ∈ l, wsChar c = true) :
    splitWsAux [] l = [] := by
  induction l with
  | nil => rfl
  | cons c rest ih =>
    rw [splitWsAux, if_pos (h c (by simp))]
    simp only [List.isEmpty_nil, if_pos]
    exact ih (fun c' hc' => h c' (by simp [hc']))

theorem tokenizeWords_all_ws (t : Str) (h : ∀ c ∈ t, wsChar c = true) :
    tokenizeWords t = [] := by
  unfold tokenizeWords
  apply splitWsAux_all_ws
  intro c hc
  simp only [List.mem_map] at hc
  obtain ⟨c2, ⟨c3, ⟨c4, hc4, rfl⟩, rfl⟩, rfl⟩ := hc
  rw [lowerChar_ws (h c4 hc4), normQuote_ws (h c4 hc4), keepOrSpace_ws (h c4 hc4)]
  exact h c4 hc4

theorem sentencesOf_all_ws (t : Str) (h : ∀ c ∈ t, wsChar c = true) :
    sentencesOf t = [] := by
  unfold sentencesOf
  rw [List.filter_eq_nil_iff]
  intro p hp
  simp only [List.mem_map] at hp
  obtain ⟨piece, hpiece, rfl⟩ := hp
  have hall : ∀ c ∈ piece, wsChar c = true := by
    intro c hc
    have hmem := mem_of_mem_splitMark hpiece hc
    rw [List.map_fst_zip _ _ (by rw [cutFlags_length])] at hmem
    exact h c (mem_normCRLF hmem)
  have htrim : jsTrim piece = [] := by
    unfold jsTrim
    rw [List.dropWhile_eq_nil_iff.mpr (fun c hc => hall c hc)]
    rfl
  simp [htrim]

/-- Claim C10: a non-empty all-whitespace input within the size guard is
not rejected as missing; the run completes and produces the full report
with empty buckets, empty keyword list, empty focal-point lists and empty
rearchitecture list, and sourceSize equal to the input length. -/
theorem whitespace_only_run (t : Str) (hne : t ≠ []) (hws : ∀ c ∈ t, wsChar c = true)
    (hlen : t.length ≤ 200000) :
    mainModel (some t)
      = RunResult.success ⟨t.length, ⟨[], [], []⟩, [], ⟨[], []⟩, []⟩ := by
  have hsent : sentencesOf t = [] := sentencesOf_all_ws t hws
  have htok : tokenizeWords t = [] := tokenizeWords_all_ws t hws
  cases t with
  | nil => exact absurd rfl hne
  | cons c cs =>
    simp only [mainModel, List.isEmpty_cons, Bool.false_eq_true, if_false]
    rw [if_neg (by omega)]
    unfold pipeline
    rw [hsent, htok]
    rfl

/-- Witness for C10 at an input of three whitespace characters. -/
theorem whitespace_only_run_witness :
    str "   " ≠ [] ∧ (∀ c ∈ str "   ", wsChar c = true) ∧ (str "   ").length ≤ 200000 ∧
      mainModel (some (str "   "))
        = RunResult.success ⟨(str "   ").length, ⟨[], [], []⟩, [], ⟨[], []⟩, []⟩ :=
  ⟨by decide, by decide, by decide,
    whitespace_only_run (str "   ") (by decide) (by decide) (by decide)⟩

/-- Witness for C8 at the concrete input "hello". -/
theorem input_guards_witness :
    ((mainModel (some (str "hello")) = RunResult.missingInput ↔
        some (str "hello") = none ∨ some (str "hello") = some [])
      ∧ (mainModel (some (str "hello")) = RunResult.tooLarge ↔
          ∃ t, some (str "hello") = some t ∧ t ≠ [] ∧ 200000 < t.length)
      ∧ (∀ t, some (str "hello") = some t → t ≠ [] → t.length ≤ 200000 →
          mainModel (some (str "hello")) = RunResult.success (pipeline t))
      ∧ exitCodeOf RunResult.missingInput = 2
      ∧ exitCodeOf RunResult.tooLarge = 3) :=
  input_guards (some (str "hello"))

end DR
